import Mathlib

/-!
Verification of the video-highlights core of the h4b backend:
moment detection parsing (primary JSON parse and numeric fallback),
the greedy duration-budget allocator, video splitting and merging,
and workspace lifecycle. Times are modelled as rationals, paths as
lists of name components, and the filesystem as explicit state.
-/

namespace H4b

/-- A time segment `[start, stop]` in seconds (source field names `start`/`end`;
`end` is a Lean keyword, so the upper bound is called `stop` here). -/
structure Seg where
  start : ℚ
  stop : ℚ
  deriving DecidableEq, Repr

/-- Duration of a segment. -/
def Seg.dur (s : Seg) : ℚ := s.stop - s.start

/-- Total duration of a list of segments, `sum(end - start)`. -/
def sumDur (l : List Seg) : ℚ := (l.map Seg.dur).sum

/-- The greedy budget loop of `getPeakMoments` (videoProcessor.ts, the
`Process segments and enforce 30-second limit` loop), generalised over the
literal budget `30` and minimum clip length `3`: accept a proposal whole if it
fits, otherwise accept a truncated copy when at least `minClip` seconds of
budget remain and stop, otherwise stop. -/
def allocateSegments (budget minClip : ℚ) : List Seg → ℚ → List Seg
  | [], _ => []
  | p :: rest, total =>
    if total + p.dur ≤ budget then
      p :: allocateSegments budget minClip rest (total + p.dur)
    else if minClip ≤ budget - total then
      [⟨p.start, p.start + (budget - total)⟩]
    else
      []

/-- The accept-only budget loop applied to fallback timestamps in
`getPeakMoments` (`Apply 30-second limit to fallback timestamps`),
generalised over the literal budget `30`: accept while the segment fits,
break at the first overflow, never truncate. -/
def limitFallbackSegments (budget : ℚ) : List Seg → ℚ → List Seg
  | [], _ => []
  | p :: rest, total =>
    if total + p.dur ≤ budget then
      p :: limitFallbackSegments budget rest (total + p.dur)
    else
      []

/-- The primary-path budget enforcement exactly as instantiated in the code:
budget 30 seconds, minimum truncated clip 3 seconds, cumulative total 0. -/
def enforceThirtySecondLimit (segs : List Seg) : List Seg :=
  allocateSegments 30 3 segs 0

/-- The fallback-path budget enforcement exactly as instantiated in the code:
budget 30 seconds, cumulative total 0. -/
def limitFallbackThirty (segs : List Seg) : List Seg :=
  limitFallbackSegments 30 segs 0

theorem allocateSegments_sumDur_le (budget minClip : ℚ) :
    ∀ (props : List Seg) (total : ℚ), total ≤ budget →
      total + sumDur (allocateSegments budget minClip props total) ≤ budget := by
  intro props
  induction props with
  | nil => intro total h; simpa [allocateSegments, sumDur] using h
  | cons p rest ih =>
    intro total h
    simp only [allocateSegments]
    split_ifs with h1 h2
    · have := ih (total + p.dur) h1
      simp only [sumDur, List.map_cons, List.sum_cons] at this ⊢
      linarith
    · simp only [sumDur, List.map_cons, List.map_nil, List.sum_cons, List.sum_nil, Seg.dur]
      linarith
    · simpa [sumDur] using h

theorem limitFallbackSegments_sumDur_le (budget : ℚ) :
    ∀ (props : List Seg) (total : ℚ), total ≤ budget →
      total + sumDur (limitFallbackSegments budget props total) ≤ budget := by
  intro props
  induction props with
  | nil => intro total h; simpa [limitFallbackSegments, sumDur] using h
  | cons p rest ih =>
    intro total h
    simp only [limitFallbackSegments]
    split_ifs with h1
    · have := ih (total + p.dur) h1
      simp only [sumDur, List.map_cons, List.sum_cons] at this ⊢
      linarith
    · simpa [sumDur] using h

/-- C1: for every proposal list and every (nonnegative) budget, the plan
produced by the budget allocator — both the primary truncating path and the
accept-only numeric-fallback path, including their concrete instantiations at
the code's budget of 30 seconds — has total duration `sum(end - start)` at
most the budget, and an empty proposal list yields an empty plan on both
paths. -/
theorem allocator_respects_budget (props : List Seg) (budget minClip : ℚ)
    (hb : 0 ≤ budget) :
    sumDur (allocateSegments budget minClip props 0) ≤ budget ∧
    sumDur (limitFallbackSegments budget props 0) ≤ budget ∧
    sumDur (enforceThirtySecondLimit props) ≤ 30 ∧
    sumDur (limitFallbackThirty props) ≤ 30 ∧
    allocateSegments budget minClip [] 0 = [] ∧
    limitFallbackSegments budget [] 0 = [] := by
  refine ⟨?_, ?_, ?_, ?_, rfl, rfl⟩
  · have := allocateSegments_sumDur_le budget minClip props 0 hb
    linarith
  · have := limitFallbackSegments_sumDur_le budget props 0 hb
    linarith
  · have := allocateSegments_sumDur_le 30 3 props 0 (by norm_num)
    simpa [enforceThirtySecondLimit] using by linarith
  · have := limitFallbackSegments_sumDur_le 30 props 0 (by norm_num)
    simpa [limitFallbackThirty] using by linarith

/-- Witness for C1 at the code's budget 30 / minClip 3, on an adversarial
proposal list: one segment longer than the whole budget followed by many tiny
segments. -/
theorem allocator_respects_budget_witness :
    sumDur (allocateSegments 30 3
      [⟨0, 100⟩, ⟨1, 2⟩, ⟨2, 3⟩, ⟨3, 4⟩, ⟨4, 5⟩] 0) ≤ 30 ∧
    sumDur (limitFallbackSegments 30
      [⟨0, 100⟩, ⟨1, 2⟩, ⟨2, 3⟩, ⟨3, 4⟩, ⟨4, 5⟩] 0) ≤ 30 := by
  have h := allocator_respects_budget
    [⟨0, 100⟩, ⟨1, 2⟩, ⟨2, 3⟩, ⟨3, 4⟩, ⟨4, 5⟩] 30 3 (by norm_num)
  exact ⟨h.1, h.2.1⟩

/-- C3: whenever the budget allocator reaches a proposal `p` that does not fit
(`total + dur(p) > budget`) while at least `minClip` seconds of budget remain,
it accepts exactly the truncated segment `[p.start, p.start + (budget - total)]`
— so the truncated end equals the start plus the remaining budget, the
cumulative total becomes exactly the budget, and no proposal after the
truncated one is accepted, whatever follows in the list. -/
theorem allocator_truncation (p : Seg) (rest : List Seg) (total budget minClip : ℚ)
    (h1 : ¬ total + p.dur ≤ budget) (h2 : minClip ≤ budget - total) :
    allocateSegments budget minClip (p :: rest) total
        = [⟨p.start, p.start + (budget - total)⟩] ∧
    total + sumDur (allocateSegments budget minClip (p :: rest) total) = budget := by
  have heq : allocateSegments budget minClip (p :: rest) total
      = [⟨p.start, p.start + (budget - total)⟩] := by
    simp only [allocateSegments]
    rw [if_neg h1, if_pos h2]
  refine ⟨heq, ?_⟩
  rw [heq]
  simp only [sumDur, List.map_cons, List.map_nil, List.sum_cons, List.sum_nil, Seg.dur]
  ring

/-- Witness for C3: budget 30, minClip 3, cumulative 25 reached, proposal
`[0, 10]` does not fit; the allocator yields exactly the truncation `[0, 5]`
and the cumulative total becomes 30, regardless of the later proposal
`[40, 50]`. -/
theorem allocator_truncation_witness :
    allocateSegments 30 3 [⟨0, 10⟩, ⟨40, 50⟩] 25 = [⟨0, 5⟩] ∧
    25 + sumDur (allocateSegments 30 3 [⟨0, 10⟩, ⟨40, 50⟩] 25) = 30 := by
  have h := allocator_truncation ⟨0, 10⟩ [⟨40, 50⟩] 25 30 3
    (by norm_num [Seg.dur]) (by norm_num)
  have h0 : (⟨0, 0 + (30 - 25)⟩ : Seg) = ⟨0, 5⟩ := by norm_num
  exact ⟨h0 ▸ h.1, h.2⟩

/-- C4 counterexample: on proposals `[[5,8],[20,23],[40,50]]` with budget 5 and
minClip 3 the allocator does NOT truncate `[20,23]` to `[20,22]`: after
accepting `[5,8]` only 2 seconds of budget remain, which is below
minClipSeconds = 3, so the allocator stops without accepting anything further.
The plan is the single segment `[5,8]` with total duration 3, not the claimed
two segments with total duration 5. -/
theorem allocator_budget5_counterexample :
    allocateSegments 5 3 [⟨5, 8⟩, ⟨20, 23⟩, ⟨40, 50⟩] 0 = [⟨5, 8⟩] ∧
    allocateSegments 5 3 [⟨5, 8⟩, ⟨20, 23⟩, ⟨40, 50⟩] 0 ≠ [⟨5, 8⟩, ⟨20, 22⟩] ∧
    sumDur (allocateSegments 5 3 [⟨5, 8⟩, ⟨20, 23⟩, ⟨40, 50⟩] 0) = 3 := by
  refine ⟨?_, ?_, ?_⟩ <;> norm_num [allocateSegments, Seg.dur, sumDur]

/-- C4 amended: with budget 5 and minClip 3 the allocator accepts `[5,8]`
(3 seconds), then — because only 2 seconds of budget remain, less than
minClipSeconds — stops without truncating `[20,23]`, producing a plan of
exactly one segment with total duration 3; the two-segment plan
`[[5,8],[20,22]]` of total duration exactly 5 arises instead when
minClipSeconds is at most the 2 remaining seconds, e.g. minClipSeconds = 2. -/
theorem allocator_budget5_example :
    allocateSegments 5 3 [⟨5, 8⟩, ⟨20, 23⟩, ⟨40, 50⟩] 0 = [⟨5, 8⟩] ∧
    sumDur (allocateSegments 5 3 [⟨5, 8⟩, ⟨20, 23⟩, ⟨40, 50⟩] 0) = 3 ∧
    allocateSegments 5 2 [⟨5, 8⟩, ⟨20, 23⟩, ⟨40, 50⟩] 0 = [⟨5, 8⟩, ⟨20, 22⟩] ∧
    sumDur (allocateSegments 5 2 [⟨5, 8⟩, ⟨20, 23⟩, ⟨40, 50⟩] 0) = 5 := by
  refine ⟨?_, ?_, ?_, ?_⟩ <;> norm_num [allocateSegments, Seg.dur, sumDur]

/-- A parsed JSON value as classified by the validation filter of
`getPeakMoments`: a number, or anything whose `typeof` is not `number`. -/
inductive JVal
  | num (q : ℚ)
  | nonNum
  deriving DecidableEq, Repr

/-- A top-level entry of the parsed JSON array: an array of values, or a
non-array value. -/
inductive JEntry
  | arr (vals : List JVal)
  | nonArr
  deriving DecidableEq, Repr

/-- The per-entry validation of `getPeakMoments`: keep a pair only when it is
an array of exactly two numbers with `start < end` and `0 <= start`; anything
else is discarded (per entry, not fatally). -/
def validEntry : JEntry → Option Seg
  | .arr [.num s, .num e] => if s < e ∧ 0 ≤ s then some ⟨s, e⟩ else none
  | _ => none

/-- The `validTimestamps` filter of `getPeakMoments`: per-entry validation
over the parsed array, discarding invalid entries and keeping the rest. -/
def parseValidTimestamps (entries : List JEntry) : List Seg :=
  entries.filterMap validEntry

/-- The primary-parse branch of `getPeakMoments` after `JSON.parse`
succeeded with an array: return `[]` for an empty array, otherwise validate
entries and enforce the 30-second limit, returning `[]` when nothing
survives. -/
def primaryProcess (entries : List JEntry) : List Seg :=
  if entries = [] then []
  else
    let finalTimestamps := enforceThirtySecondLimit (parseValidTimestamps entries)
    if finalTimestamps = [] then [] else finalTimestamps

/-- One maximal match of the numeric-token regex `\d+\.?\d*` in
`getPeakMoments`' fallback: accumulated integer part, whether a decimal dot
was consumed, and the accumulated fraction digits with their count. -/
structure NumToken where
  ip : ℕ
  dot : Bool
  fp : ℕ
  fd : ℕ
  deriving DecidableEq, Repr

/-- Numeric value of a digit character. -/
def digitVal (c : Char) : ℕ := c.toNat - 48

/-- One step of the left-to-right scan implementing the global regex match
`text.match(/\d+\.?\d*/g)`: outside a number a digit opens a token; inside a
number digits extend it (before or after the single optional dot), a first
dot is consumed, and any other character closes the token. -/
def scanStep : List NumToken × Option NumToken → Char → List NumToken × Option NumToken
  | (toks, none), c =>
    if c.isDigit then (toks, some ⟨digitVal c, false, 0, 0⟩) else (toks, none)
  | (toks, some t), c =>
    if c.isDigit then
      if t.dot then (toks, some ⟨t.ip, true, t.fp * 10 + digitVal c, t.fd + 1⟩)
      else (toks, some ⟨t.ip * 10 + digitVal c, false, t.fp, t.fd⟩)
    else if c = '.' && !t.dot then (toks, some ⟨t.ip, true, t.fp, t.fd⟩)
    else (toks ++ [t], none)

/-- All matches of `\d+\.?\d*` in the raw response text, in order. -/
def scanNumberTokens (s : String) : List NumToken :=
  match s.data.foldl scanStep ([], none) with
  | (toks, some t) => toks ++ [t]
  | (toks, none) => toks

/-- `parseFloat` of one matched token. -/
def tokenVal (t : NumToken) : ℚ := t.ip + (t.fp : ℚ) / 10 ^ t.fd

/-- The fallback's `numbers` list: every numeric token of the raw text as a
rational. Tokens matched by `\d+\.?\d*` are always nonnegative. -/
def extractNumberTokens (s : String) : List ℚ :=
  (scanNumberTokens s).map tokenVal

/-- The fallback pairing loop of `getPeakMoments`: group the numbers into
sequential pairs (`i += 2`), keeping a pair as a segment only when
`start < end` and the span is at most 15 seconds. -/
def fallbackPairSegments : List ℚ → List Seg
  | a :: b :: rest =>
    if a < b ∧ b - a ≤ 15 then ⟨a, b⟩ :: fallbackPairSegments rest
    else fallbackPairSegments rest
  | _ => []

/-- The whole numeric fallback of `getPeakMoments`: it runs only when the raw
text contains at least 4 numeric tokens; pairs them, and applies the
accept-only 30-second limit, returning `[]` when nothing survives. -/
def fallbackParse (raw : String) : List Seg :=
  let nums := extractNumberTokens raw
  if 4 ≤ nums.length then
    let fallbackTimestamps := fallbackPairSegments nums
    if fallbackTimestamps = [] then []
    else
      let limited := limitFallbackThirty fallbackTimestamps
      if limited = [] then [] else limited
  else []

/-- Outcome of `JSON.parse` on the cleaned response text in `getPeakMoments`:
it threw (caught by the `catch` block), succeeded with a non-array value, or
succeeded with an array of entries. -/
inductive GeminiParse
  | failed
  | parsedNonArray
  | parsed (entries : List JEntry)
  deriving DecidableEq, Repr

/-- The segment list `getPeakMoments` produces from a detection-service
response, as a function of the `JSON.parse` outcome and the raw response
text: the numeric fallback runs only in the `catch` block, i.e. only when
`JSON.parse` threw. -/
def getPeakMomentsResult (pr : GeminiParse) (raw : String) : List Seg :=
  match pr with
  | .failed => fallbackParse raw
  | .parsedNonArray => []
  | .parsed entries => primaryProcess entries

theorem tokenVal_nonneg (t : NumToken) : 0 ≤ tokenVal t := by
  unfold tokenVal
  positivity

theorem extractNumberTokens_nonneg (s : String) :
    ∀ q ∈ extractNumberTokens s, 0 ≤ q := by
  intro q hq
  rcases List.mem_map.mp hq with ⟨t, _, rfl⟩
  exact tokenVal_nonneg t

theorem validEntry_some_valid (e : JEntry) (seg : Seg)
    (h : validEntry e = some seg) : 0 ≤ seg.start ∧ seg.start < seg.stop := by
  match e with
  | .nonArr => simp [validEntry] at h
  | .arr [] => simp [validEntry] at h
  | .arr [v] => cases v <;> simp [validEntry] at h
  | .arr (v :: w :: x :: rest) => cases v <;> cases w <;> simp [validEntry] at h
  | .arr [.nonNum, w] => cases w <;> simp [validEntry] at h
  | .arr [.num s, .nonNum] => simp [validEntry] at h
  | .arr [.num s, .num e'] =>
    simp only [validEntry] at h
    split_ifs at h with hc
    cases h
    exact ⟨hc.2, hc.1⟩

theorem parseValidTimestamps_valid (entries : List JEntry) :
    ∀ seg ∈ parseValidTimestamps entries, 0 ≤ seg.start ∧ seg.start < seg.stop := by
  intro seg hseg
  rcases List.mem_filterMap.mp hseg with ⟨e, _, he⟩
  exact validEntry_some_valid e seg he

theorem fallbackPairSegments_valid :
    ∀ nums : List ℚ, (∀ q ∈ nums, 0 ≤ q) →
      ∀ seg ∈ fallbackPairSegments nums, 0 ≤ seg.start ∧ seg.start < seg.stop
  | [], _, seg, h => by simp [fallbackPairSegments] at h
  | [a], _, seg, h => by simp [fallbackPairSegments] at h
  | a :: b :: rest, hnn, seg, h => by
    have hrest : ∀ q ∈ rest, 0 ≤ q := fun q hq => hnn q (by simp [hq])
    simp only [fallbackPairSegments] at h
    split_ifs at h with hc
    · rcases List.mem_cons.mp h with rfl | h'
      · exact ⟨hnn a (by simp), hc.1⟩
      · exact fallbackPairSegments_valid rest hrest seg h'
    · exact fallbackPairSegments_valid rest hrest seg h

theorem allocateSegments_valid (budget minClip : ℚ) (hm : 0 < minClip) :
    ∀ (props : List Seg) (total : ℚ),
      (∀ p ∈ props, 0 ≤ p.start ∧ p.start < p.stop) →
      ∀ seg ∈ allocateSegments budget minClip props total,
        0 ≤ seg.start ∧ seg.start < seg.stop := by
  intro props
  induction props with
  | nil => intro total _ seg h; simp [allocateSegments] at h
  | cons p rest ih =>
    intro total hv seg h
    have hrest : ∀ q ∈ rest, 0 ≤ q.start ∧ q.start < q.stop :=
      fun q hq => hv q (by simp [hq])
    simp only [allocateSegments] at h
    split_ifs at h with h1 h2
    · rcases List.mem_cons.mp h with rfl | h'
      · exact hv seg (by simp)
      · exact ih (total + p.dur) hrest seg h'
    · rcases List.mem_cons.mp h with rfl | h'
      · refine ⟨(hv p (by simp)).1, ?_⟩
        have : (0 : ℚ) < budget - total := lt_of_lt_of_le hm h2
        simp only
        linarith
      · simp at h'
    · simp at h

theorem limitFallbackSegments_subset (budget : ℚ) :
    ∀ (props : List Seg) (total : ℚ),
      ∀ seg ∈ limitFallbackSegments budget props total, seg ∈ props := by
  intro props
  induction props with
  | nil => intro total seg h; simp [limitFallbackSegments] at h
  | cons p rest ih =>
    intro total seg h
    simp only [limitFallbackSegments] at h
    split_ifs at h with h1
    · rcases List.mem_cons.mp h with rfl | h'
      · simp
      · exact List.mem_cons_of_mem p (ih (total + p.dur) seg h')
    · simp at h

/-- C5: every segment accepted by the detector's parsing satisfies
`0 ≤ start < end` — for the primary validation filter, for the numeric
fallback pairs built from the raw text (whose regex tokens are nonnegative),
and for the final output of `getPeakMoments` on every parse outcome, so no
invalid pair is ever passed downstream to the allocator or the extractor;
moreover discarding is per entry: an invalid entry is dropped without
affecting the remaining entries. -/
theorem parsing_accepts_only_valid_segments :
    (∀ (entries : List JEntry), ∀ seg ∈ parseValidTimestamps entries,
        0 ≤ seg.start ∧ seg.start < seg.stop) ∧
    (∀ (e : JEntry) (entries : List JEntry), validEntry e = none →
        parseValidTimestamps (e :: entries) = parseValidTimestamps entries) ∧
    (∀ raw : String, ∀ seg ∈ fallbackPairSegments (extractNumberTokens raw),
        0 ≤ seg.start ∧ seg.start < seg.stop) ∧
    (∀ (pr : GeminiParse) (raw : String), ∀ seg ∈ getPeakMomentsResult pr raw,
        0 ≤ seg.start ∧ seg.start < seg.stop) := by
  have hfb : ∀ raw : String, ∀ seg ∈ fallbackPairSegments (extractNumberTokens raw),
      0 ≤ seg.start ∧ seg.start < seg.stop := fun raw =>
    fallbackPairSegments_valid (extractNumberTokens raw) (extractNumberTokens_nonneg raw)
  refine ⟨fun entries => parseValidTimestamps_valid entries, ?_, hfb, ?_⟩
  · intro e entries he
    simp [parseValidTimestamps, List.filterMap_cons, he]
  · intro pr raw seg h
    match pr with
    | .parsedNonArray => simp [getPeakMomentsResult] at h
    | .parsed entries =>
      simp only [getPeakMomentsResult, primaryProcess] at h
      split_ifs at h with h1 h2
      · simp at h
      · simp at h
      · exact allocateSegments_valid 30 3 (by norm_num)
          (parseValidTimestamps entries) 0 (parseValidTimestamps_valid entries) seg h
    | .failed =>
      simp only [getPeakMomentsResult, fallbackParse] at h
      split_ifs at h with h1 h2 h3
      · simp at h
      · simp at h
      · exact hfb raw seg
          (limitFallbackSegments_subset 30 (fallbackPairSegments (extractNumberTokens raw)) 0 seg h)
      · simp at h

/-- Witness for C5 on concrete inputs: the entry `[1, 2]` is accepted by the
primary filter and satisfies the invariant, and an invalid entry `[3, 3]` is
discarded without disturbing the rest of the list. -/
theorem parsing_accepts_only_valid_segments_witness :
    (0 ≤ (⟨1, 2⟩ : Seg).start ∧ (⟨1, 2⟩ : Seg).start < (⟨1, 2⟩ : Seg).stop) ∧
    parseValidTimestamps [.arr [.num 3, .num 3], .arr [.num 1, .num 2]]
      = parseValidTimestamps [.arr [.num 1, .num 2]] := by
  have h := parsing_accepts_only_valid_segments
  constructor
  · refine h.1 [.arr [.num 1, .num 2]] ⟨1, 2⟩ ?_
    simp only [parseValidTimestamps, List.filterMap, validEntry]
    norm_num
  · refine h.2.1 (.arr [.num 3, .num 3]) [.arr [.num 1, .num 2]] ?_
    simp only [validEntry]
    norm_num

theorem scanTokens_fourNums :
    scanNumberTokens "1 2 3 4" =
      [⟨1, false, 0, 0⟩, ⟨2, false, 0, 0⟩, ⟨3, false, 0, 0⟩, ⟨4, false, 0, 0⟩] := by
  decide

theorem fallbackParse_fourNums : fallbackParse "1 2 3 4" = [⟨1, 2⟩, ⟨3, 4⟩] := by
  have h1 : extractNumberTokens "1 2 3 4" = [1, 2, 3, 4] := by
    rw [extractNumberTokens, scanTokens_fourNums]
    norm_num [tokenVal]
  simp only [fallbackParse, h1]
  norm_num [fallbackPairSegments, limitFallbackThirty, limitFallbackSegments, Seg.dur]
  simp

/-- C6 counterexample: on the parse outcome "JSON.parse succeeded but the
single entry is discarded as invalid" with raw text `"1 2 3 4"`,
`getPeakMoments` returns the empty sequence even though the numeric fallback
stage would have yielded two segments: the fallback lives only in the `catch`
block, so it is not attempted when the primary parse succeeds with zero
usable entries, and an empty sequence is returned although a stage that the
claim requires to be tried yields something. -/
theorem fallback_not_attempted_counterexample :
    getPeakMomentsResult (.parsed [.nonArr]) "1 2 3 4" = [] ∧
    fallbackParse "1 2 3 4" = [⟨1, 2⟩, ⟨3, 4⟩] ∧
    fallbackParse "1 2 3 4" ≠ [] := by
  refine ⟨?_, fallbackParse_fourNums, by rw [fallbackParse_fourNums]; simp⟩
  simp [getPeakMomentsResult, primaryProcess, parseValidTimestamps, validEntry,
    enforceThirtySecondLimit, allocateSegments]

/-- C6 amended: the numeric fallback is attempted exactly when `JSON.parse`
throws; when the primary parse succeeds, its validated-and-budgeted list is
returned as is — in particular, when parsing succeeds but every entry is
discarded, the empty sequence is returned without attempting the fallback.
Consequently `getPeakMoments` returns the empty sequence iff the parse threw
and the fallback yields nothing, or the parse succeeded with a non-array, or
the parse succeeded and validation plus the 30-second budget left nothing. -/
theorem fallback_only_on_parse_failure (pr : GeminiParse) (raw : String) :
    getPeakMomentsResult .failed raw = fallbackParse raw ∧
    (∀ entries : List JEntry,
        getPeakMomentsResult (.parsed entries) raw = primaryProcess entries) ∧
    (getPeakMomentsResult pr raw = [] ↔
      (pr = .failed ∧ fallbackParse raw = []) ∨
      pr = .parsedNonArray ∨
      (∃ entries, pr = .parsed entries ∧
          enforceThirtySecondLimit (parseValidTimestamps entries) = [])) := by
  refine ⟨rfl, fun _ => rfl, ?_⟩
  match pr with
  | .failed => simp [getPeakMomentsResult]
  | .parsedNonArray => simp [getPeakMomentsResult]
  | .parsed entries =>
    simp only [getPeakMomentsResult, primaryProcess]
    split_ifs with h1 h2
    · subst h1
      simp [parseValidTimestamps, enforceThirtySecondLimit, allocateSegments]
    · simp [h2]
    · simp [h2]

theorem scanTokens_momentText :
    scanNumberTokens "moment around 5.2 to 9.8 seconds" =
      [⟨5, true, 2, 1⟩, ⟨9, true, 8, 1⟩] := by
  decide

/-- C7 counterexample: on the malformed response text
`"moment around 5.2 to 9.8 seconds"` the fallback parse recovers NO segment:
the text contains only two numeric tokens (5.2 and 9.8) while the code runs
the fallback only when at least four numeric tokens are present, so
`getPeakMoments` returns the empty sequence. -/
theorem fallback_momentText_counterexample :
    fallbackParse "moment around 5.2 to 9.8 seconds" = [] ∧
    getPeakMomentsResult .failed "moment around 5.2 to 9.8 seconds" = [] := by
  have h1 : extractNumberTokens "moment around 5.2 to 9.8 seconds"
      = [26/5, 49/5] := by
    rw [extractNumberTokens, scanTokens_momentText]
    norm_num [tokenVal]
  have h : fallbackParse "moment around 5.2 to 9.8 seconds" = [] := by
    simp only [fallbackParse, h1]
    norm_num
  exact ⟨h, h⟩

theorem scanTokens_momentsTextFour :
    scanNumberTokens "moments around 5.2 to 9.8 and 12.5 to 14.0 seconds" =
      [⟨5, true, 2, 1⟩, ⟨9, true, 8, 1⟩, ⟨12, true, 5, 1⟩, ⟨14, true, 0, 1⟩] := by
  decide

/-- C7 amended: the two-token text recovers nothing because the fallback
requires at least four numeric tokens; on malformed text with four numeric
tokens, such as `"moments around 5.2 to 9.8 and 12.5 to 14.0 seconds"`, the
fallback recovers segments — here `[5.2, 9.8]` and `[12.5, 14]` — and every
recovered segment satisfies `start < end`. -/
theorem fallback_recovers_with_four_tokens :
    fallbackParse "moments around 5.2 to 9.8 and 12.5 to 14.0 seconds" =
      [⟨26/5, 49/5⟩, ⟨25/2, 14⟩] ∧
    fallbackParse "moments around 5.2 to 9.8 and 12.5 to 14.0 seconds" ≠ [] ∧
    (26 : ℚ)/5 < 49/5 ∧ (25 : ℚ)/2 < 14 := by
  have h1 : extractNumberTokens "moments around 5.2 to 9.8 and 12.5 to 14.0 seconds"
      = [26/5, 49/5, 25/2, 14] := by
    rw [extractNumberTokens, scanTokens_momentsTextFour]
    norm_num [tokenVal]
  have h : fallbackParse "moments around 5.2 to 9.8 and 12.5 to 14.0 seconds"
      = [⟨26/5, 49/5⟩, ⟨25/2, 14⟩] := by
    simp only [fallbackParse, h1]
    norm_num [fallbackPairSegments, limitFallbackThirty, limitFallbackSegments, Seg.dur]
    simp
  refine ⟨h, by rw [h]; simp, by norm_num, by norm_num⟩

/-- A filesystem path, as its list of name components. -/
abbrev FPath := List String

/-- `p` lies directly inside directory `d` (exactly one component below),
i.e. `p = d ++ [name]` for some entry name — the files `readdirSync` lists
and `cleanup` unlinks. -/
def directChild (d p : FPath) : Bool := !p.isEmpty && p.dropLast == d

/-- The errors `CloudinaryVideoSplitter.mergeSegments` can raise: empty
input, a missing clip file found by the pre-flight check (carrying that
clip's path), a non-zero ffmpeg exit code, and a missing output file after
the join. -/
inductive MergeError
  | noSegments
  | segmentNotFound (p : FPath)
  | ffmpegFailed (code : ℤ)
  | outputMissing
  deriving DecidableEq, Repr

/-- Whether a file exists in a size-annotated file listing. -/
def hasFile (fs : List (FPath × ℕ)) (p : FPath) : Bool :=
  (fs.map Prod.fst).contains p

/-- Model of `CloudinaryVideoSplitter.mergeSegments`: reject an empty clip
list; pre-flight check each clip file in order against the filesystem before
the join, raising an error naming the first missing clip; run ffmpeg in
concat mode (its exit code is an input of the model), a non-zero exit
raising an error; then check only the EXISTENCE of the output file in the
post-join filesystem — the code reads the output's size merely to log it and
accepts an existing output of any size, including zero bytes. -/
def mergeSegments (segmentPaths : List FPath) (fsBefore : List (FPath × ℕ))
    (ffmpegExit : ℤ) (fsAfter : List (FPath × ℕ)) (outputPath : FPath) :
    Except MergeError FPath :=
  if segmentPaths.isEmpty then .error .noSegments
  else
    match segmentPaths.find? (fun p => !(hasFile fsBefore p)) with
    | some p => .error (.segmentNotFound p)
    | none =>
      if ffmpegExit ≠ 0 then .error (.ffmpegFailed ffmpegExit)
      else if hasFile fsAfter outputPath then .ok outputPath
      else .error .outputMissing

/-- C8 counterexample: every clip exists, ffmpeg exits 0, and the output file
exists but is empty (size 0 bytes); `mergeSegments` SUCCEEDS instead of
raising an error, because the code checks only that the output exists — the
size is read for logging only and non-emptiness is never verified. -/
theorem mergeSegments_empty_output_counterexample :
    mergeSegments [["tmp", "seg1.mp4"]] [(["tmp", "seg1.mp4"], 100)] 0
      [(["tmp", "merged.mp4"], 0)] ["tmp", "merged.mp4"]
      = .ok ["tmp", "merged.mp4"] := by
  rfl

/-- C8 amended: `mergeSegments` pre-flight-checks that every clip exists and
raises an error naming a missing clip when one does not; a non-zero ffmpeg
exit raises an error; after the join it verifies that the output file EXISTS,
raising an error when it does not — but it does not check non-emptiness: an
existing output of any size (even zero bytes) is accepted. -/
theorem mergeSegments_error_checks (segmentPaths : List FPath)
    (fsBefore : List (FPath × ℕ)) (ffmpegExit : ℤ) (fsAfter : List (FPath × ℕ))
    (outputPath : FPath) :
    (∀ p ∈ segmentPaths, hasFile fsBefore p = false →
        ∃ q, q ∈ segmentPaths ∧ hasFile fsBefore q = false ∧
          mergeSegments segmentPaths fsBefore ffmpegExit fsAfter outputPath
            = .error (.segmentNotFound q)) ∧
    (segmentPaths ≠ [] → (∀ p ∈ segmentPaths, hasFile fsBefore p = true) →
        ffmpegExit ≠ 0 →
        mergeSegments segmentPaths fsBefore ffmpegExit fsAfter outputPath
          = .error (.ffmpegFailed ffmpegExit)) ∧
    (segmentPaths ≠ [] → (∀ p ∈ segmentPaths, hasFile fsBefore p = true) →
        ffmpegExit = 0 → hasFile fsAfter outputPath = false →
        mergeSegments segmentPaths fsBefore ffmpegExit fsAfter outputPath
          = .error .outputMissing) ∧
    (segmentPaths ≠ [] → (∀ p ∈ segmentPaths, hasFile fsBefore p = true) →
        ffmpegExit = 0 → hasFile fsAfter outputPath = true →
        mergeSegments segmentPaths fsBefore ffmpegExit fsAfter outputPath
          = .ok outputPath) := by
  have hne : ∀ p, p ∈ segmentPaths → segmentPaths.isEmpty = false := by
    intro p hp
    cases segmentPaths
    · simp at hp
    · rfl
  have hfindnone : (∀ p ∈ segmentPaths, hasFile fsBefore p = true) →
      segmentPaths.find? (fun p => !(hasFile fsBefore p)) = none := by
    intro hall
    apply List.find?_eq_none.mpr
    intro x hx
    simp [hall x hx]
  refine ⟨?_, ?_, ?_, ?_⟩
  · intro p hp hmiss
    cases hfind : segmentPaths.find? (fun x => !(hasFile fsBefore x)) with
    | none =>
      exfalso
      have := List.find?_eq_none.mp hfind p hp
      simp [hmiss] at this
    | some q =>
      refine ⟨q, List.mem_of_find?_eq_some hfind, ?_, ?_⟩
      · have := List.find?_some hfind
        simpa using this
      · simp only [mergeSegments, hne p hp, Bool.false_eq_true, if_false, hfind]
  · intro hnil hall hexit
    obtain ⟨p, hp⟩ : ∃ p, p ∈ segmentPaths := by
      cases segmentPaths
      · exact absurd rfl hnil
      · exact ⟨_, List.mem_cons_self _ _⟩
    simp only [mergeSegments, hne p hp, Bool.false_eq_true, if_false, hfindnone hall,
      hexit, if_pos, ne_eq, not_false_eq_true]
  · intro hnil hall hexit hout
    obtain ⟨p, hp⟩ : ∃ p, p ∈ segmentPaths := by
      cases segmentPaths
      · exact absurd rfl hnil
      · exact ⟨_, List.mem_cons_self _ _⟩
    simp [mergeSegments, hne p hp, hfindnone hall, hexit, hout]
  · intro hnil hall hexit hout
    obtain ⟨p, hp⟩ : ∃ p, p ∈ segmentPaths := by
      cases segmentPaths
      · exact absurd rfl hnil
      · exact ⟨_, List.mem_cons_self _ _⟩
    simp [mergeSegments, hne p hp, hfindnone hall, hexit, hout]

/-- Witness for C8 (amended): one existing clip, exit code 0, an existing
non-empty output: the join succeeds; and with a missing clip the pre-flight
check names it. -/
theorem mergeSegments_error_checks_witness :
    mergeSegments [["tmp", "seg1.mp4"]] [(["tmp", "seg1.mp4"], 100)] 0
      [(["tmp", "out.mp4"], 777)] ["tmp", "out.mp4"] = .ok ["tmp", "out.mp4"] ∧
    ∃ q, q ∈ [(["tmp", "gone.mp4"] : FPath)] ∧ hasFile [] q = false ∧
      mergeSegments [["tmp", "gone.mp4"]] [] 0 [] ["tmp", "out.mp4"]
        = .error (.segmentNotFound q) := by
  constructor
  · exact (mergeSegments_error_checks [["tmp", "seg1.mp4"]]
      [(["tmp", "seg1.mp4"], 100)] 0 [(["tmp", "out.mp4"], 777)]
      ["tmp", "out.mp4"]).2.2.2 (by simp) (by decide) rfl (by decide)
  · exact (mergeSegments_error_checks [["tmp", "gone.mp4"]] [] 0 []
      ["tmp", "out.mp4"]).1 ["tmp", "gone.mp4"] (by simp) (by decide)

/-- Files and directories currently on disk. -/
structure FileState where
  files : List FPath
  dirs : List FPath
  deriving DecidableEq, Repr

/-- Model of `CloudinaryVideoSplitter.cleanup`: when the workspace directory
exists, `readdirSync` lists its entries and each is `unlinkSync`ed — which
throws if an entry is itself a directory — then `rmdirSync` removes the now
empty directory; when the directory does not exist, nothing happens. The
`Except` value records whether the call threw. -/
def cleanup (tempDir : FPath) (st : FileState) : Except Unit FileState :=
  if tempDir ∈ st.dirs then
    if st.dirs.any (fun d => directChild tempDir d) then .error ()
    else .ok ⟨st.files.filter (fun p => !(directChild tempDir p)),
              st.dirs.filter (fun d => d ≠ tempDir)⟩
  else .ok st

/-- The state after a `cleanup` call that did not throw (unchanged state when
it threw, for totality). -/
def cleanupRun (tempDir : FPath) (st : FileState) : FileState :=
  match cleanup tempDir st with
  | .ok st1 => st1
  | .error _ => st

/-- The residual files of the workspace: files directly inside it. -/
def residualFiles (tempDir : FPath) (st : FileState) : List FPath :=
  st.files.filter (fun p => directChild tempDir p)

/-- C9: for any filesystem state in which the workspace contains no
subdirectory (the splitter only ever creates plain files in it) and files
inside the workspace imply the workspace directory exists, `cleanup` raises
no error, calling it a second time raises no error either and leaves the
state unchanged (cleanup composed with itself equals a single cleanup), and
after each call zero residual files remain and the workspace directory is
gone. -/
theorem cleanup_idempotent (tempDir : FPath) (st : FileState)
    (hnosub : ∀ d ∈ st.dirs, directChild tempDir d = false)
    (hconsist : ∀ p ∈ st.files, directChild tempDir p = true → tempDir ∈ st.dirs) :
    (cleanup tempDir st).isOk = true ∧
    cleanup tempDir st = .ok (cleanupRun tempDir st) ∧
    (cleanup tempDir (cleanupRun tempDir st)).isOk = true ∧
    cleanup tempDir (cleanupRun tempDir st) = .ok (cleanupRun tempDir st) ∧
    residualFiles tempDir (cleanupRun tempDir st) = [] ∧
    tempDir ∉ (cleanupRun tempDir st).dirs := by
  by_cases hdir : tempDir ∈ st.dirs
  · have hany : st.dirs.any (fun d => directChild tempDir d) = false := by
      rw [List.any_eq_false]
      intro d hd
      simp [hnosub d hd]
    have hclean : cleanup tempDir st
        = .ok ⟨st.files.filter (fun p => !(directChild tempDir p)),
               st.dirs.filter (fun d => d ≠ tempDir)⟩ := by
      simp only [cleanup, if_pos hdir, hany, Bool.false_eq_true, if_false]
    have hrun : cleanupRun tempDir st
        = ⟨st.files.filter (fun p => !(directChild tempDir p)),
           st.dirs.filter (fun d => d ≠ tempDir)⟩ := by
      simp only [cleanupRun, hclean]
    have hnotin : tempDir ∉ (cleanupRun tempDir st).dirs := by
      rw [hrun]
      simp
    have hsecond : cleanup tempDir (cleanupRun tempDir st)
        = .ok (cleanupRun tempDir st) := by
      simp only [cleanup, if_neg hnotin]
    refine ⟨by simp [hclean, Except.isOk, Except.toBool], by rw [hclean, hrun], ?_, hsecond, ?_, hnotin⟩
    · simp [hsecond, Except.isOk, Except.toBool]
    · rw [hrun, residualFiles]
      apply List.filter_eq_nil_iff.mpr
      intro p hp
      have := (List.mem_filter.mp hp).2
      simp only [Bool.not_eq_true'] at this
      simp [this]
  · have hclean : cleanup tempDir st = .ok st := by
      simp only [cleanup, if_neg hdir]
    have hrun : cleanupRun tempDir st = st := by
      simp only [cleanupRun, hclean]
    refine ⟨by simp [hclean, Except.isOk, Except.toBool], by rw [hclean, hrun], ?_, ?_, ?_, ?_⟩
    · rw [hrun]
      simp [hclean, Except.isOk, Except.toBool]
    · rw [hrun, hclean]
    · rw [hrun, residualFiles]
      apply List.filter_eq_nil_iff.mpr
      intro p hp hchild
      exact hdir (hconsist p hp hchild)
    · rw [hrun]
      exact hdir

/-- Witness for C9: a workspace `tmp/ws` holding one file, alongside the
unrelated directory `tmp`; both cleanup calls succeed, the second is a
no-op, and no residual file or workspace directory remains. -/
theorem cleanup_idempotent_witness :
    (cleanup ["tmp", "ws"] ⟨[["tmp", "ws", "a.mp4"]], [["tmp"], ["tmp", "ws"]]⟩).isOk = true ∧
    residualFiles ["tmp", "ws"]
      (cleanupRun ["tmp", "ws"] ⟨[["tmp", "ws", "a.mp4"]], [["tmp"], ["tmp", "ws"]]⟩) = [] := by
  have h := cleanup_idempotent ["tmp", "ws"]
    ⟨[["tmp", "ws", "a.mp4"]], [["tmp"], ["tmp", "ws"]]⟩
    (by decide) (by decide)
  exact ⟨h.1, h.2.2.2.2.1⟩

/-- Model of `CloudinaryVideoSplitter.splitVideo` from index `i`: for each
segment compute its duration and skip it (with only a warning) when the
duration is not positive; otherwise run ffmpeg for the segment — the exit
code of attempt `i` is an input of the model, and a failure immediately
propagates, aborting all remaining extractions — and append the produced
clip, identified by its index and segment, in order. -/
def splitVideoGo (exitCode : ℕ → ℤ) : ℕ → List Seg → Except ℕ (List (ℕ × Seg))
  | _, [] => .ok []
  | i, s :: rest =>
    if s.dur ≤ 0 then splitVideoGo exitCode (i + 1) rest
    else if exitCode i ≠ 0 then .error i
    else
      match splitVideoGo exitCode (i + 1) rest with
      | .ok clips => .ok ((i, s) :: clips)
      | .error j => .error j

/-- `splitVideo` proper: the loop starts at index 0. -/
def splitVideo (segs : List Seg) (exitCode : ℕ → ℤ) : Except ℕ (List (ℕ × Seg)) :=
  splitVideoGo exitCode 0 segs

theorem splitVideoGo_all_ok (exitCode : ℕ → ℤ) :
    ∀ (segs : List Seg) (k : ℕ), (∀ s ∈ segs, 0 < s.dur) →
      (∀ i, exitCode i = 0) →
      splitVideoGo exitCode k segs = .ok (segs.enumFrom k) := by
  intro segs
  induction segs with
  | nil => intro k _ _; simp [splitVideoGo, List.enumFrom]
  | cons s rest ih =>
    intro k hv hz
    have hd : ¬ s.dur ≤ 0 := not_le.mpr (hv s (by simp))
    have hrest : ∀ x ∈ rest, 0 < x.dur := fun x hx => hv x (by simp [hx])
    simp only [splitVideoGo, if_neg hd, hz k, ne_eq, not_true_eq_false, if_neg,
      not_false_eq_true, ih (k + 1) hrest hz, List.enumFrom]

theorem splitVideoGo_abort (exitCode : ℕ → ℤ) :
    ∀ (segs : List Seg) (k j : ℕ), (∀ s ∈ segs, 0 < s.dur) →
      j < segs.length → (∀ i, k ≤ i → i < k + j → exitCode i = 0) →
      exitCode (k + j) ≠ 0 →
      splitVideoGo exitCode k segs = .error (k + j) := by
  intro segs
  induction segs with
  | nil => intro k j _ hj; simp at hj
  | cons s rest ih =>
    intro k j hv hj hz hfail
    have hd : ¬ s.dur ≤ 0 := not_le.mpr (hv s (by simp))
    have hrest : ∀ x ∈ rest, 0 < x.dur := fun x hx => hv x (by simp [hx])
    cases j with
    | zero =>
      have : exitCode k ≠ 0 := by simpa using hfail
      simp [splitVideoGo, if_neg hd, this]
    | succ j' =>
      have hk0 : exitCode k = 0 := hz k le_rfl (by omega)
      have hrec : splitVideoGo exitCode (k + 1) rest = .error ((k + 1) + j') := by
        refine ih (k + 1) j' hrest (by simpa using hj) ?_ ?_
        · intro i h1 h2
          exact hz i (by omega) (by omega)
        · have : (k + 1) + j' = k + (j' + 1) := by omega
          rw [this]
          exact hfail
      have hidx : (k + 1) + j' = k + (j' + 1) := by omega
      simp only [splitVideoGo, if_neg hd, hk0, ne_eq, not_true_eq_false, if_neg,
        not_false_eq_true, hrec, hidx]

/-- C10: if every segment passed to `splitVideo` satisfies the TimeSegment
invariant `start < end`, the invalid-duration skip branch is unreachable:
when every ffmpeg invocation succeeds the result is exactly one extracted
clip per planned segment, indexed in plan order (`enum`); and when the
ffmpeg invocation for the segment at position `j` fails after all earlier
ones succeeded, the whole call propagates the error for position `j`,
aborting all remaining extractions and producing no clip list. -/
theorem splitVideo_per_segment (segs : List Seg) (exitCode : ℕ → ℤ)
    (hv : ∀ s ∈ segs, s.start < s.stop) :
    ((∀ i, exitCode i = 0) → splitVideo segs exitCode = .ok segs.enum) ∧
    (∀ j, j < segs.length → (∀ i, i < j → exitCode i = 0) → exitCode j ≠ 0 →
        splitVideo segs exitCode = .error j) := by
  have hv' : ∀ s ∈ segs, 0 < s.dur := by
    intro s hs
    have := hv s hs
    simp only [Seg.dur]
    linarith
  constructor
  · intro hz
    rw [splitVideo, splitVideoGo_all_ok exitCode segs 0 hv' hz]
    rfl
  · intro j hj hz hfail
    have := splitVideoGo_abort exitCode segs 0 j hv' hj
      (fun i _ h2 => hz i (by omega)) (by simpa using hfail)
    simpa using this

/-- Witness for C10: two valid segments, all extractions succeed: one clip
per segment in plan order; and with the second extraction failing, the run
aborts with the error for index 1. -/
theorem splitVideo_per_segment_witness :
    splitVideo [⟨0, 1⟩, ⟨2, 3⟩] (fun _ => 0) = .ok ([(0, ⟨0, 1⟩), (1, ⟨2, 3⟩)]) ∧
    splitVideo [⟨0, 1⟩, ⟨2, 3⟩] (fun i => if i = 0 then 0 else 1) = .error 1 := by
  have hv : ∀ s ∈ [(⟨0, 1⟩ : Seg), ⟨2, 3⟩], s.start < s.stop := by
    intro s hs
    simp only [List.mem_cons, List.not_mem_nil, or_false] at hs
    rcases hs with rfl | rfl
    all_goals norm_num
  constructor
  · have h := (splitVideo_per_segment [⟨0, 1⟩, ⟨2, 3⟩] (fun _ => 0) hv).1 (fun _ => rfl)
    simpa [List.enum, List.enumFrom] using h
  · exact (splitVideo_per_segment [⟨0, 1⟩, ⟨2, 3⟩] (fun i => if i = 0 then 0 else 1) hv).2
      1 (by norm_num) (by intro i hi; interval_cases i; rfl) (by norm_num)

/-- Model of the finalization-and-cleanup tail of `extractVideoHighlights`
(videoHighlights.ts): the returned output path is
`(outputDir or the OS temp directory) / filename`; `processVideo` has left
the merged reel at `workDir / filename` inside the splitter's workspace
`workDir`; the reel is copied to the output path only when an output
directory was supplied and the two paths differ; then the splitter's
`cleanup` deletes every file directly inside the workspace. The result is
the returned path together with the files existing after cleanup. -/
def extractFinalize (outputDir : Option FPath) (filename : String)
    (workDir tmpDir : FPath) (fsAfterProcess : List FPath) : FPath × List FPath :=
  let finalOutputDir := outputDir.getD tmpDir
  let outputPath := finalOutputDir ++ [filename]
  let tempOutputPath := workDir ++ [filename]
  let fs1 := if outputDir.isSome ∧ tempOutputPath ≠ outputPath
    then outputPath :: fsAfterProcess else fsAfterProcess
  (outputPath, fs1.filter (fun p => !(directChild workDir p)))

/-- C2: when a caller supplies an output directory, the reel is copied out of
the workspace before cleanup and survives at the returned path — but in the
default temp-directory case (no output directory) the copy branch is
skipped: the function returns `tmpDir/filename` while the reel sits at
`workDir/filename`, which cleanup then deletes, so after the run NO file
exists at the returned path (indeed no reel file exists at all). -/
theorem extractVideoHighlights_default_loses_reel :
    (extractFinalize none "reel.mp4" ["tmp", "ws1"] ["tmp"]
        [["tmp", "ws1", "reel.mp4"]]).1 = ["tmp", "reel.mp4"] ∧
    (extractFinalize none "reel.mp4" ["tmp", "ws1"] ["tmp"]
        [["tmp", "ws1", "reel.mp4"]]).2 = [] ∧
    (extractFinalize (some ["out"]) "reel.mp4" ["tmp", "ws1"] ["tmp"]
        [["tmp", "ws1", "reel.mp4"]]).1 = ["out", "reel.mp4"] ∧
    (extractFinalize (some ["out"]) "reel.mp4" ["tmp", "ws1"] ["tmp"]
        [["tmp", "ws1", "reel.mp4"]]).1 ∈
      (extractFinalize (some ["out"]) "reel.mp4" ["tmp", "ws1"] ["tmp"]
        [["tmp", "ws1", "reel.mp4"]]).2 := by
  refine ⟨rfl, rfl, rfl, ?_⟩
  show (["out", "reel.mp4"] : FPath) ∈ _
  decide

end H4b
